import Mathlib

set_option maxRecDepth 8000

/-!
# Shallow embedding of `routing.cpp` (Network-Layer-Routing-Simulation)

This file embeds the discrete-event routing simulator of `routing.cpp` in
Lean 4 and proves or refutes the frozen claims about it.

Modelling conventions:
* The C++ 26×26 `float` arrays (`propDelay`, `capacity`, `availCap`, `cost`,
  and each event's `resources`) are modelled as functions `Fin 26 → Fin 26 → _`.
  `capacity`, `availCap` and `resources` only ever hold integer values (they
  are loaded from integers and changed by `±1` or by adding such values), so
  they are modelled over `ℤ`; `propDelay` and `cost` are modelled over `ℚ`
  (exact arithmetic in place of IEEE `float`; every concrete value appearing
  in the theorems below is exactly representable as a `float`).
* The C++ conversion `int alt = dist[u] + edgeCost[u][j]` truncates the
  `float` sum toward zero; this is `cppTrunc` below.
* The C++ `-1` sentinel in `previousVertex` is modelled as `Option (Fin 26)`,
  and the sentinel return value `50` of `minDistVertexInQueue` (checked by
  `u > 27` at the call sites) as `none`.
* Dijkstra's working arrays `dist`, `queue`, `previousVertex` are modelled as
  lists of length 26 indexed through `Fin 26`.
* The outer `while (size > 0)` loop decrements `size` exactly once per
  non-breaking iteration, so it is modelled by structural recursion on `size`.
  The path walks `while (previousVertex[curr] > -1)` are modelled with fuel
  26: a `previousVertex` chain produced by the search steps only through
  already-settled vertices, so it can never visit a vertex twice, and 26
  steps of fuel are enough to reproduce every terminating C++ execution.
-/

/-- 26×26 matrix, the shape of all global arrays in `routing.cpp`. -/
def Mat (α : Type) : Type := Fin 26 → Fin 26 → α

instance {α : Type} [DecidableEq α] : DecidableEq (Mat α) := by
  unfold Mat; infer_instance

/-- C++ `float`→`int` conversion: truncation toward zero. -/
def cppTrunc (q : ℚ) : ℤ := if q < 0 then -⌊-q⌋ else ⌊q⌋

/-- Read a `dist` entry (C++ `dist[i]`, an `int` array of length 26). -/
def dget (dist : List ℤ) (v : Fin 26) : ℤ := dist.getD v.1 999

/-- Read a `queue` entry (C++ `queue[i]`, 1 = in queue, 0 = not in queue). -/
def qget (queue : List Bool) (v : Fin 26) : Bool := queue.getD v.1 false

/-- Read a `previousVertex` entry (C++ `previousVertex[i]`, `-1` = `none`). -/
def pget (prev : List (Option (Fin 26))) (v : Fin 26) : Option (Fin 26) :=
  (prev.getD v.1 none)

/-- Tabulate a function over vertices as a length-26 list. -/
def tabZ (f : Fin 26 → ℤ) : List ℤ := (List.finRange 26).map f

/-- Tabulate a boolean vertex predicate as a length-26 list. -/
def tabB (f : Fin 26 → Bool) : List Bool := (List.finRange 26).map f

/-- Tabulate an optional-vertex function as a length-26 list. -/
def tabO (f : Fin 26 → Option (Fin 26)) : List (Option (Fin 26)) :=
  (List.finRange 26).map f

/-- One parsed call-workload entry (class `CallEvent` of `routing.cpp`).
`resources` is the per-call reservation table `int resources[26][26]`. -/
structure CallEvent where
  startTime : ℚ
  duration : ℚ
  endTime : ℚ
  source : Fin 26
  destination : Fin 26
  running : Bool
  resources : Mat ℤ

instance : Inhabited CallEvent :=
  ⟨⟨0, 0, 0, 0, 0, false, fun _ _ => 0⟩⟩

/-- The constructor `CallEvent(s, d, sr, dst)`: `endTime = s + d`,
`running = false`, `resources` zero-initialised. -/
def CallEvent.mk0 (s d : ℚ) (sr dst : Fin 26) : CallEvent :=
  ⟨s, d, s + d, sr, dst, false, fun _ _ => 0⟩

/-- `CallEvent::reset()`: clear `running` and zero the reservation table. -/
def CallEvent.reset (e : CallEvent) : CallEvent :=
  { e with running := false, resources := fun _ _ => 0 }

/-- The immutable part of the global state: `propDelay` and `capacity`
(set once while loading `topology.dat`, never written afterwards). -/
structure Topo where
  propDelay : Mat ℚ
  capacity : Mat ℤ

/-- The mutable global state of one simulation:
`availCap`, `cost`, `eventQueue` and the statistics counters.
(The C++ counters are `double`s that only ever hold naturals;
`totalProp` accumulates propagation delays and stays `ℚ`.) -/
structure SimState where
  availCap : Mat ℤ
  cost : Mat ℚ
  events : List CallEvent
  totalCalls : ℕ
  blockedCalls : ℕ
  succCalls : ℕ
  totalHops : ℕ
  totalProp : ℚ

/-- One line of `topology.dat`: two node letters (as `Fin 26`), the
propagation delay and the capacity. -/
structure TopoEntry where
  src : Fin 26
  dst : Fin 26
  delay : ℚ
  cap : ℤ

/-- One line of `callworkload.dat`: arrival time, source, destination,
duration. -/
structure WorkEntry where
  arrival : ℚ
  source : Fin 26
  destination : Fin 26
  duration : ℚ

/-- The topology-loading loop of `main`: for each line,
`propDelay[src][dest] = propDelay[dest][src] = c` and
`capacity[src][dest] = capacity[dest][src] = d` (and the same for
`availCap`, which therefore starts equal to `capacity`). -/
def loadTopoStep (t : Topo) (e : TopoEntry) : Topo :=
  { propDelay := fun u v =>
      if (u = e.src ∧ v = e.dst) ∨ (u = e.dst ∧ v = e.src) then e.delay
      else t.propDelay u v
    capacity := fun u v =>
      if (u = e.src ∧ v = e.dst) ∨ (u = e.dst ∧ v = e.src) then e.cap
      else t.capacity u v }

/-- Loading `topology.dat` starts from the zero-initialised global arrays. -/
def loadTopo (entries : List TopoEntry) : Topo :=
  entries.foldl loadTopoStep ⟨fun _ _ => 0, fun _ _ => 0⟩

/-- The workload-loading loop of `main`: one `CallEvent` per line (in file
order) and `totalCalls` incremented per line. -/
def loadEvents (work : List WorkEntry) : List CallEvent :=
  work.map fun w => CallEvent.mk0 w.arrival w.duration w.source w.destination

/-- The global state right after `main` has loaded both input files:
`availCap = capacity`, `cost` zero-initialised (global array), all
counters zero except `totalCalls`. -/
def initState (entries : List TopoEntry) (work : List WorkEntry) : SimState :=
  { availCap := (loadTopo entries).capacity
    cost := fun _ _ => 0
    events := loadEvents work
    totalCalls := work.length
    blockedCalls := 0
    succCalls := 0
    totalHops := 0
    totalProp := 0 }

/-- `clearValues()`: reset the statistics counters, restore
`availCap := capacity` (the `memcpy`), reset every event, and zero the
`cost` array (the `memset`). `totalCalls` is not cleared. -/
def clearValues (t : Topo) (s : SimState) : SimState :=
  { s with
    blockedCalls := 0
    succCalls := 0
    totalHops := 0
    totalProp := 0
    availCap := t.capacity
    events := s.events.map CallEvent.reset
    cost := fun _ _ => 0 }

/-- The row-major order in which the nested
`for (k = 0..25) for (m = 0..25)` loops visit the index pairs. -/
def pairList : List (Fin 26 × Fin 26) :=
  (List.finRange 26).flatMap fun k => (List.finRange 26).map fun m => (k, m)

/-- The body of the resource-reclamation loop in `timeUpdate`, for one index
pair `(k, m)`: if `resources[k][m] > 0` then
`availCap[k][m] = availCap[m][k] += resources[k][m]` and
`resources[k][m] = resources[m][k] = 0`, else no change. -/
def releaseStep (ar : Mat ℤ × Mat ℤ) (km : Fin 26 × Fin 26) : Mat ℤ × Mat ℤ :=
  let a := ar.1
  let r := ar.2
  let k := km.1
  let m := km.2
  if 0 < r k m then
    (fun u v =>
        if (u = k ∧ v = m) ∨ (u = m ∧ v = k) then a m k + r k m else a u v,
     fun u v =>
        if (u = k ∧ v = m) ∨ (u = m ∧ v = k) then 0 else r u v)
  else ar

/-- The full resource-reclamation double loop of `timeUpdate`, applied to the
pair (available-capacity array, one event's reservation table). -/
def releaseEvent (a r : Mat ℤ) : Mat ℤ × Mat ℤ :=
  pairList.foldl releaseStep (a, r)

/-- The body of the outer `for (j = 0..currentIndex-1)` loop of
`timeUpdate`: if event `j` is `running` and its `endTime` is at most the
current event's `startTime`, clear its `running` flag and reclaim its
resources. -/
def timeUpdateStep (currentIndex : ℕ) (s : SimState) (j : ℕ) : SimState :=
  let e := s.events.getD j default
  if e.running ∧ e.endTime ≤ (s.events.getD currentIndex default).startTime
  then
    let ar := releaseEvent s.availCap e.resources
    { s with
      availCap := ar.1
      events := s.events.set j { e with running := false, resources := ar.2 } }
  else s

/-- `timeUpdate(currentIndex)`: for every event `j < currentIndex` that is
`running` and whose `endTime` is at most the current event's `startTime`,
clear `running` and reclaim its reserved resources. -/
def timeUpdate (currentIndex : ℕ) (s : SimState) : SimState :=
  (List.range currentIndex).foldl (timeUpdateStep currentIndex) s

/-- `updateSHPF()`: cost 1 on every link with positive available capacity,
0 otherwise.  The C++ loop writes both `cost[k][m]` and `cost[m][k]` at
iteration `(k, m)` from `availCap[k][m]`, so the surviving (last, row-major)
write to cell `(u, v)` is the one at iteration `(max u v, min u v)`. -/
def updateSHPF (avail : Mat ℤ) : Mat ℚ :=
  fun u v => if 0 < avail (max u v) (min u v) then 1 else 0

/-- `updateLLP()`: `cost[k][m] = 1 - availCap[k][m] / capacity[k][m]`
(each iteration writes only its own cell, so the loop is pointwise). -/
def updateLLP (t : Topo) (avail : Mat ℤ) : Mat ℚ :=
  fun u v => 1 - (avail u v : ℚ) / (t.capacity u v : ℚ)

/-- `updateMFC()`: `cost[k][m] = availCap[k][m] / capacity[k][m]`. -/
def updateMFC (t : Topo) (avail : Mat ℤ) : Mat ℚ :=
  fun u v => (avail u v : ℚ) / (t.capacity u v : ℚ)

/-- The scan of `minDistVertexInQueue`, with the running minimum `minVal`
(initially 999) and the best index so far (initially the out-of-range
sentinel 50, modelled as `none`). -/
def minDistAux (dist : List ℤ) (queue : List Bool) :
    List (Fin 26) → ℤ → Option (Fin 26) → Option (Fin 26)
  | [], _, best => best
  | i :: rest, minVal, best =>
    if qget queue i = true ∧ dget dist i < minVal then
      minDistAux dist queue rest (dget dist i) (some i)
    else
      minDistAux dist queue rest minVal best

/-- `minDistVertexInQueue(dist, queue)`: index of the queued vertex with the
smallest distance below 999, or `none` (C++ returns 50, caught by the
`u > 27` check at both call sites). -/
def minDistVertexInQueue (dist : List ℤ) (queue : List Bool) :
    Option (Fin 26) :=
  minDistAux dist queue (List.finRange 26) 999 none

/-- One relaxation pass (the inner `for (j = 0..25)` loop of the Dijkstra
loops): for every `j` still in the queue with `relaxGuard[u][j] > 0`,
compute `int alt = dist[u] + edgeCost[u][j]` and update `dist[j]`,
`previousVertex[j]` when `alt < dist[j]`.  Each iteration writes only
`dist[j]`/`previousVertex[j]` and reads `dist[u]` with `u` outside the
queue, so the loop is pointwise in `j`. -/
def relaxAll (relaxGuard : Mat ℤ) (edgeCost : Mat ℚ) (u : Fin 26)
    (dist : List ℤ) (queue : List Bool) (prev : List (Option (Fin 26))) :
    List ℤ × List (Option (Fin 26)) :=
  (tabZ fun j =>
      if qget queue j = true ∧ 0 < relaxGuard u j ∧
          cppTrunc ((dget dist u : ℚ) + edgeCost u j) < dget dist j
      then cppTrunc ((dget dist u : ℚ) + edgeCost u j)
      else dget dist j,
   tabO fun j =>
      if qget queue j = true ∧ 0 < relaxGuard u j ∧
          cppTrunc ((dget dist u : ℚ) + edgeCost u j) < dget dist j
      then some u
      else pget prev j)

/-- The `while (size > 0)` Dijkstra loop shared by `updateState` and
`emptySHPO` (they differ only in the matrix guarding relaxation).  Returns
the final `dist`, `previousVertex` and `foundFlag`.  `size` decreases by
exactly one per non-breaking iteration, so it drives the recursion. -/
def dijkstraLoop (relaxGuard : Mat ℤ) (edgeCost : Mat ℚ)
    (destination : Fin 26) :
    ℕ → List ℤ → List Bool → List (Option (Fin 26)) →
    List ℤ × List (Option (Fin 26)) × Bool
  | 0, dist, _, prev => (dist, prev, false)
  | size + 1, dist, queue, prev =>
    match minDistVertexInQueue dist queue with
    | none => (dist, prev, false)
    | some u =>
      let queue1 := queue.set u.1 false
      if u = destination then (dist, prev, true)
      else
        let dp := relaxAll relaxGuard edgeCost u dist queue1 prev
        dijkstraLoop relaxGuard edgeCost destination size dp.1 queue1 dp.2

/-- The queue-initialisation loop: vertex `i` enters the queue (once) if it
has any edge with `adj[i][j] > 0`; `size` counts the queued vertices. -/
def queueInit (adj : Mat ℤ) : List Bool :=
  tabB fun i => decide (∃ j, 0 < adj i j)

/-- The initial `dist` array: 999 everywhere (`dist[source] = 0` is
assigned afterwards, as in the C++ code). -/
def distInit : List ℤ :=
  tabZ fun _ => 999

/-- The initial `previousVertex` array: `-1` (`none`) everywhere. -/
def prevInit : List (Option (Fin 26)) :=
  tabO fun _ => none

/-- Run the full Dijkstra search of `updateState`/`emptySHPO`:
`queueAdj` decides queue membership (`availCap` in `updateState`, the
global `capacity` in `emptySHPO`), `relaxGuard` guards relaxation. -/
def runDijkstra (queueAdj relaxGuard : Mat ℤ) (edgeCost : Mat ℚ)
    (source destination : Fin 26) :
    List ℤ × List (Option (Fin 26)) × Bool :=
  dijkstraLoop relaxGuard edgeCost destination
    ((queueInit queueAdj).count true)
    (distInit.set source.1 0) (queueInit queueAdj) prevInit

/-- The hop-counting walk at the end of `emptySHPO`:
`while (previousVertex[curr] > -1) { hopPath1++; curr = previousVertex[curr]; }`
(fuel 26, enough for every chain the search can produce). -/
def hopWalk (prev : List (Option (Fin 26))) : ℕ → Fin 26 → ℤ
  | 0, _ => 0
  | fuel + 1, curr =>
    match pget prev curr with
    | none => 0
    | some p => hopWalk prev fuel p + 1

/-- `emptySHPO(source, destination, edgeCost, capZero, current)`: run the
Dijkstra loop with queue membership decided by the global `capacity` array
but relaxation guarded by the `capZero` argument, then return the number of
hops of the found path, or 999 if the destination was not reached. -/
def emptySHPO (t : Topo) (source destination : Fin 26) (edgeCost : Mat ℚ)
    (capZero : Mat ℤ) : ℤ :=
  let dpf := runDijkstra t.capacity capZero edgeCost source destination
  if dpf.2.2 then hopWalk dpf.2.1 26 destination else 999

/-- The reservation walk at the end of `updateState`: follow
`previousVertex` from the destination, and for each link decrement both
symmetric `availCap` cells, increment both symmetric cells of the current
event's `resources`, add the link's `propDelay` to `totalProp` and count
the hop. -/
def reserveWalk (t : Topo) (prev : List (Option (Fin 26))) (current : ℕ) :
    ℕ → Fin 26 → SimState → SimState
  | 0, _, s => s
  | fuel + 1, curr, s =>
    match pget prev curr with
    | none => s
    | some p =>
      let e := s.events.getD current default
      let s1 : SimState :=
        { s with
          availCap := fun u v =>
            if (u = curr ∧ v = p) ∨ (u = p ∧ v = curr)
            then s.availCap p curr - 1 else s.availCap u v
          events := s.events.set current
            { e with resources := fun u v =>
                if (u = curr ∧ v = p) ∨ (u = p ∧ v = curr)
                then e.resources p curr + 1 else e.resources u v }
          totalProp := s.totalProp + t.propDelay curr p
          totalHops := s.totalHops + 1 }
      reserveWalk t prev current fuel p s1

/-- `updateState(source, destination, edgeCost, current)`: Dijkstra over the
subgraph of links with positive available capacity; on success walk the
found path reserving capacity and updating the totals, returning `true`;
on failure return `false` with the state untouched. -/
def updateState (t : Topo) (source destination : Fin 26) (edgeCost : Mat ℚ)
    (current : ℕ) (s : SimState) : SimState × Bool :=
  let dpf := runDijkstra s.availCap s.availCap edgeCost source destination
  if dpf.2.2 then
    (reserveWalk t dpf.2.1 current 26 destination s, true)
  else
    (s, false)

/-- The five policies whose near-identical loops make up `main`. -/
inductive Policy
  | SHPF
  | SDPF
  | LLP
  | MFC
  | SHPO
deriving DecidableEq

/-- Set the `running` flag of event `i`. -/
def setRunning (s : SimState) (i : ℕ) (b : Bool) : SimState :=
  { s with events := s.events.set i { s.events.getD i default with running := b } }

/-- The loading part of one iteration of a policy's event loop in `main`:
`timeUpdate(i)`, mark the current event `running`, and refresh the `cost`
array as the policy requires (SHPF and SHPO call `updateSHPF`, LLP and MFC
their own updaters, SDPF leaves `cost` alone and searches on `propDelay`).
The C++ loop reads the current event's `source`/`destination` between
`timeUpdate` and the `running` flag assignment; neither assignment touches
those fields, so `decidePhase` below reads them afterwards unchanged. -/
def loadPhase (t : Topo) (p : Policy) (i : ℕ) (s : SimState) : SimState :=
  let s1 := setRunning (timeUpdate i s) i true
  match p with
  | Policy.SHPF => { s1 with cost := updateSHPF s1.availCap }
  | Policy.SHPO => { s1 with cost := updateSHPF s1.availCap }
  | Policy.LLP => { s1 with cost := updateLLP t s1.availCap }
  | Policy.MFC => { s1 with cost := updateMFC t s1.availCap }
  | Policy.SDPF => s1

/-- The blocked-call outcome in `main`: `blockedCalls++` and the current
event's `running` flag is cleared. -/
def blockCall (s : SimState) (i : ℕ) : SimState :=
  { setRunning s i false with blockedCalls := s.blockedCalls + 1 }

/-- The admitted-call outcome in `main`: `succCalls++`. -/
def succCall (s : SimState) : SimState :=
  { s with succCalls := s.succCalls + 1 }

/-- The admission decision of one iteration of a policy's event loop:
either the SHPO double search, or `updateState` on the policy's edge
costs (`propDelay` for SDPF, the `cost` array otherwise). -/
def decidePhase (t : Topo) (p : Policy) (i : ℕ) (s : SimState) : SimState :=
  let src := (s.events.getD i default).source
  let dst := (s.events.getD i default).destination
  match p with
  | Policy.SHPO =>
    if emptySHPO t src dst s.cost s.availCap >
        emptySHPO t src dst s.cost t.capacity
    then blockCall s i
    else succCall (updateState t src dst s.cost i s).1
  | _ =>
    let edgeCost := if p = Policy.SDPF then t.propDelay else s.cost
    let sb := updateState t src dst edgeCost i s
    if sb.2 then succCall sb.1 else blockCall sb.1 i

/-- The body of one iteration of a policy's event loop in `main`. -/
def processEvent (t : Topo) (p : Policy) (s : SimState) (i : ℕ) : SimState :=
  decidePhase t p i (loadPhase t p i s)

/-- The state after the first `k` iterations of a policy's event loop. -/
def runPrefix (t : Topo) (p : Policy) (s : SimState) (k : ℕ) : SimState :=
  (List.range k).foldl (processEvent t p) s

/-- One complete policy run (`while` loop over all events). -/
def runPolicy (t : Topo) (p : Policy) (s : SimState) : SimState :=
  runPrefix t p s s.events.length

/-- The statistics computed after a policy run:
`avgProp = totalProp/succCalls`, `avgHop = totalHops/succCalls`,
`succPercent = succCalls/totalCalls*100`,
`blockedPercent = blockedCalls/totalCalls*100`.
The two averages divide by `succCalls` unconditionally. -/
def computeStats (s : SimState) : ℚ × ℚ × ℚ × ℚ :=
  ((s.totalProp : ℚ) / (s.succCalls : ℚ),
   (s.totalHops : ℚ) / (s.succCalls : ℚ),
   (s.succCalls : ℚ) / (s.totalCalls : ℚ) * 100,
   (s.blockedCalls : ℚ) / (s.totalCalls : ℚ) * 100)

/-! ## Specification-side definitions

The following definitions are not translations of `routing.cpp`; they follow
the specification's words and serve only to compare the code's behaviour
against the claims (walks in a graph, their costs, and hop-count
shortest-path distance). -/

/-- `IsWalk adj u l dst`: starting at `u`, the successive vertices of `l`
form a walk ending at `dst`, each step following a link with `adj > 0`. -/
def IsWalk (adj : Mat ℤ) : Fin 26 → List (Fin 26) → Fin 26 → Prop
  | u, [], dst => u = dst
  | u, v :: rest, dst => 0 < adj u v ∧ IsWalk adj v rest dst

/-- The walk's accumulated cost exactly as the code accumulates it:
each step stores `int alt = dist + edgeCost` (`float` truncated to `int`). -/
def walkCost (c : Mat ℚ) : Fin 26 → ℤ → List (Fin 26) → ℤ
  | _, d, [] => d
  | u, d, v :: rest => walkCost c v (cppTrunc ((d : ℚ) + c u v)) rest

/-- The last vertex of a walk starting at `u` with step list `l`. -/
def walkEnd : Fin 26 → List (Fin 26) → Fin 26
  | u, [] => u
  | _, v :: rest => walkEnd v rest

/-- Specification-side additive path cost: the exact rational sum of the
per-link edge weights along a walk (what C3 calls "the additive sum of
these per-link weights along the path"). -/
def addCost (c : Mat ℚ) : Fin 26 → List (Fin 26) → ℚ
  | _, [] => 0
  | u, v :: rest => c u v + addCost c v rest

/-- Minimum of two optional naturals, `none` acting as infinity. -/
def omin : Option ℕ → Option ℕ → Option ℕ
  | none, b => b
  | some x, none => some x
  | some x, some y => some (min x y)

/-- One Bellman-Ford round with unit edge weights over the links with
`adj > 0` (distance vector indexed by `Fin 26`, `none` = unreachable). -/
def hopRelax (adj : Mat ℤ) (d : List (Option ℕ)) : List (Option ℕ) :=
  (List.finRange 26).map fun v =>
    (List.finRange 26).foldl
      (fun acc u =>
        if 0 < adj u v then omin acc ((d.getD u.1 none).map fun n => n + 1)
        else acc)
      (d.getD v.1 none)

/-- Specification-side hop-count shortest-path distance from `src` to `dst`
over the links with `adj > 0`: 26 rounds of unit-weight Bellman-Ford
(26 rounds settle every distance in a 26-vertex graph), `none` if
unreachable. -/
def specHopDist (adj : Mat ℤ) (src dst : Fin 26) : Option ℕ :=
  ((hopRelax adj)^[26]
    ((List.finRange 26).map fun v => if v = src then some 0 else none)).getD
    dst.1 none

/-! ## Concrete inputs used by the counterexamples and witnesses -/

/-- Topology for the C2 counterexample run: eight unit-capacity links,
unit delays, on vertices A..G (0..6). -/
def shpoEntries : List TopoEntry :=
  [⟨0, 1, 1, 1⟩, ⟨1, 2, 1, 1⟩, ⟨2, 3, 1, 1⟩, ⟨0, 4, 1, 1⟩,
   ⟨4, 3, 1, 1⟩, ⟨0, 5, 1, 1⟩, ⟨5, 6, 1, 1⟩, ⟨6, 3, 1, 1⟩]

/-- Workload for the C2 counterexample run: five long one-hop calls that
saturate the links A-B, B-C, C-D, A-E, E-D, then a call A→D. -/
def shpoWork : List WorkEntry :=
  [⟨0, 0, 1, 100⟩, ⟨1, 1, 2, 100⟩, ⟨2, 2, 3, 100⟩,
   ⟨3, 0, 4, 100⟩, ⟨4, 4, 3, 100⟩, ⟨5, 0, 3, 100⟩]

/-- The loaded topology of the C2 run. -/
def shpoT : Topo := loadTopo shpoEntries

/-- The freshly loaded state of the C2 run. -/
def shpoS0 : SimState := initState shpoEntries shpoWork

/-- Topology for the C3 counterexample run: links A-C, A-D, D-C, all of
capacity 10, unit delays. -/
def llpEntries : List TopoEntry :=
  [⟨0, 2, 1, 10⟩, ⟨0, 3, 1, 10⟩, ⟨3, 2, 1, 10⟩]

/-- Workload for the C3 counterexample run: ten overlapping calls A→C. -/
def llpWork : List WorkEntry :=
  [⟨0, 0, 2, 100⟩, ⟨1, 0, 2, 100⟩, ⟨2, 0, 2, 100⟩, ⟨3, 0, 2, 100⟩,
   ⟨4, 0, 2, 100⟩, ⟨5, 0, 2, 100⟩, ⟨6, 0, 2, 100⟩, ⟨7, 0, 2, 100⟩,
   ⟨8, 0, 2, 100⟩, ⟨9, 0, 2, 100⟩]

/-- The loaded topology of the C3 run. -/
def llpT : Topo := loadTopo llpEntries

/-- The freshly loaded state of the C3 run. -/
def llpS0 : SimState := initState llpEntries llpWork

/-- Topology for the C7 run: one link C-D only. -/
def statEntries : List TopoEntry := [⟨2, 3, 1, 1⟩]

/-- Workload for the C7 run: a single call A→B, which is blocked (its
endpoints touch no link), leaving `succCalls = 0`. -/
def statWork : List WorkEntry := [⟨0, 0, 1, 1⟩]

/-- The loaded topology of the C7 run. -/
def statT : Topo := loadTopo statEntries

/-- The freshly loaded state of the C7 run. -/
def statS0 : SimState := initState statEntries statWork

/-- Workload for the C4 witness: two calls C→D on the `statEntries`
topology; the first (end time 1) has expired when the second arrives at
time 2. -/
def expireWork : List WorkEntry := [⟨0, 2, 3, 1⟩, ⟨2, 2, 3, 1⟩]

/-- Topology for the C9 witness: a single link A-B with propagation delay
999 and capacity 1. -/
def inf999Entries : List TopoEntry := [⟨0, 1, 999, 1⟩]

/-- Workload for the C9 witness: one call A→B. -/
def inf999Work : List WorkEntry := [⟨0, 0, 1, 5⟩]

/-- The loaded topology of the C9 witness. -/
def inf999T : Topo := loadTopo inf999Entries

/-- The freshly loaded state of the C9 witness. -/
def inf999S0 : SimState := initState inf999Entries inf999Work

/-! ## Invariant predicates -/

/-- A matrix is symmetric. -/
def MatSymm {α : Type} (m : Mat α) : Prop := ∀ u v, m u v = m v u

/-- Total units currently recorded against link `(u, v)` across all events'
reservation tables. -/
def resSum (evs : List CallEvent) (u v : Fin 26) : ℤ :=
  (evs.map fun e => e.resources u v).sum

/-- Capacity conservation (claim C1): on every link, available capacity
plus all recorded reservations equals the immutable capacity. -/
def Conserved (t : Topo) (s : SimState) : Prop :=
  ∀ u v, s.availCap u v + resSum s.events u v = t.capacity u v

/-- The inductive state invariant: symmetric available capacity, symmetric
and non-negative reservation tables, and capacity conservation. -/
def GoodState (t : Topo) (s : SimState) : Prop :=
  MatSymm s.availCap ∧
  (∀ e ∈ s.events, MatSymm e.resources) ∧
  (∀ e ∈ s.events, ∀ u v, 0 ≤ e.resources u v) ∧
  Conserved t s

/-- The parsed (never-to-be-mutated) fields of two events agree. -/
def sameStatic (e f : CallEvent) : Prop :=
  e.startTime = f.startTime ∧ e.duration = f.duration ∧
  e.endTime = f.endTime ∧ e.source = f.source ∧
  e.destination = f.destination

/-- The expiry condition checked by `timeUpdate(i)` on event `j`:
the event is `running` and its `endTime` is at most event `i`'s
`startTime`. -/
def expiresAt (s : SimState) (i j : ℕ) : Bool :=
  decide ((s.events.getD j default).running = true ∧
    (s.events.getD j default).endTime ≤
      (s.events.getD i default).startTime)

/-! ## Helper lemmas about the list-backed arrays -/

theorem dget_tabZ (f : Fin 26 → ℤ) (v : Fin 26) : dget (tabZ f) v = f v := by
  have hv : v.1 < (List.finRange 26).length := by simp [v.2]
  unfold dget tabZ
  rw [List.getD_eq_getElem?_getD, List.getElem?_map,
    List.getElem?_eq_getElem hv]
  simp [List.getElem_finRange]

theorem qget_tabB (f : Fin 26 → Bool) (v : Fin 26) : qget (tabB f) v = f v := by
  have hv : v.1 < (List.finRange 26).length := by simp [v.2]
  unfold qget tabB
  rw [List.getD_eq_getElem?_getD, List.getElem?_map,
    List.getElem?_eq_getElem hv]
  simp [List.getElem_finRange]

theorem pget_tabO (f : Fin 26 → Option (Fin 26)) (v : Fin 26) :
    pget (tabO f) v = f v := by
  have hv : v.1 < (List.finRange 26).length := by simp [v.2]
  unfold pget tabO
  rw [List.getD_eq_getElem?_getD, List.getElem?_map,
    List.getElem?_eq_getElem hv]
  simp [List.getElem_finRange]

theorem getD_set_self {α : Type} [Inhabited α] (l : List α) (i : ℕ) (a : α)
    (h : i < l.length) : (l.set i a).getD i default = a := by
  rw [List.getD_eq_getElem?_getD, List.getElem?_set]
  simp [h]

theorem getD_set_ne {α : Type} [Inhabited α] (l : List α) (i j : ℕ) (a : α)
    (h : i ≠ j) : (l.set i a).getD j default = l.getD j default := by
  rw [List.getD_eq_getElem?_getD, List.getElem?_set,
    List.getD_eq_getElem?_getD]
  simp [h]

theorem CallEvent_resources_mk (a b c : ℚ) (d e : Fin 26) (f : Bool)
    (R : Mat ℤ) : (CallEvent.mk a b c d e f R).resources = R := rfl

/-! ## C6: idempotence of the resource-release loop -/

theorem releaseStep_snd_nonpos_preserved (ar : Mat ℤ × Mat ℤ)
    (km : Fin 26 × Fin 26) (u v : Fin 26) (h : ar.2 u v ≤ 0) :
    (releaseStep ar km).2 u v ≤ 0 := by
  unfold releaseStep
  dsimp only
  split
  · dsimp only
    split
    · exact le_refl 0
    · exact h
  · exact h

theorem releaseFold_snd_nonpos_preserved (l : List (Fin 26 × Fin 26))
    (ar : Mat ℤ × Mat ℤ) (u v : Fin 26) (h : ar.2 u v ≤ 0) :
    (l.foldl releaseStep ar).2 u v ≤ 0 := by
  induction l generalizing ar with
  | nil => exact h
  | cons km rest ih =>
    rw [List.foldl_cons]
    exact ih _ (releaseStep_snd_nonpos_preserved ar km u v h)

theorem releaseStep_snd_self_nonpos (ar : Mat ℤ × Mat ℤ)
    (u v : Fin 26) : (releaseStep ar (u, v)).2 u v ≤ 0 := by
  unfold releaseStep
  dsimp only
  split
  · dsimp only
    split
    · exact le_refl 0
    · rename_i hguard hcell
      exact absurd (Or.inl ⟨rfl, rfl⟩) hcell
  · rename_i hguard
    exact le_of_not_lt hguard

theorem releaseFold_snd_mem_nonpos (l : List (Fin 26 × Fin 26))
    (ar : Mat ℤ × Mat ℤ) (u v : Fin 26) (h : (u, v) ∈ l) :
    (l.foldl releaseStep ar).2 u v ≤ 0 := by
  induction l generalizing ar with
  | nil => cases h
  | cons hd rest ih =>
    rw [List.foldl_cons]
    rcases List.mem_cons.mp h with heq | hmem
    · subst heq
      exact releaseFold_snd_nonpos_preserved rest _ u v
        (releaseStep_snd_self_nonpos ar u v)
    · exact ih _ hmem


theorem mem_pairList (km : Fin 26 × Fin 26) : km ∈ pairList := by
  unfold pairList
  rw [List.mem_flatMap]
  exact ⟨km.1, List.mem_finRange km.1, by
    rw [List.mem_map]
    exact ⟨km.2, List.mem_finRange km.2, rfl⟩⟩

theorem releaseFold_id_of_nonpos (l : List (Fin 26 × Fin 26))
    (ar : Mat ℤ × Mat ℤ) (h : ∀ u v, ar.2 u v ≤ 0) :
    l.foldl releaseStep ar = ar := by
  induction l with
  | nil => rfl
  | cons km rest ih =>
    rw [List.foldl_cons]
    have hstep : releaseStep ar km = ar := by
      unfold releaseStep
      dsimp only
      split
      · rename_i hguard
        exact absurd hguard (not_lt.mpr (h km.1 km.2))
      · rfl
    rw [hstep, ih]

/-- C6: releasing a call's reservations is idempotent — applying the
release loop a second time to the already-released tables changes nothing
(so a double release equals a single release). -/
theorem releaseEvent_eq (a r : Mat ℤ) :
    releaseEvent a r = pairList.foldl releaseStep (a, r) :=
  rfl

theorem releaseEvent_snd_nonpos (a r : Mat ℤ) (u v : Fin 26) :
    (releaseEvent a r).2 u v ≤ 0 := by
  have h1 := releaseFold_snd_mem_nonpos pairList (a, r) u v
    (mem_pairList (u, v))
  rw [← releaseEvent_eq a r] at h1
  exact h1

theorem C6_release_idempotent (a r : Mat ℤ) :
    releaseEvent (releaseEvent a r).1 (releaseEvent a r).2 =
      releaseEvent a r := by
  rw [releaseEvent_eq a r, releaseEvent_eq]
  generalize hx : pairList.foldl releaseStep (a, r) = x
  obtain ⟨a1, r1⟩ := x
  apply releaseFold_id_of_nonpos
  intro u v
  have hnp := releaseFold_snd_mem_nonpos pairList (a, r) u v
    (mem_pairList (u, v))
  rw [hx] at hnp
  exact hnp

/-! ## C5: a failed path search leaves the state untouched -/

/-- C5: when the path search of `updateState` finds no admissible path (the
call is blocked), the returned state is exactly the input state: no link's
available capacity, no reservation table, and neither the hop nor the
propagation-delay total is modified. -/
theorem C5_blocked_no_side_effects (t : Topo) (source destination : Fin 26)
    (edgeCost : Mat ℚ) (current : ℕ) (s : SimState)
    (h : (updateState t source destination edgeCost current s).2 = false) :
    (updateState t source destination edgeCost current s).1 = s ∧
    (updateState t source destination edgeCost current s).1.availCap =
      s.availCap ∧
    (updateState t source destination edgeCost current s).1.events =
      s.events ∧
    (updateState t source destination edgeCost current s).1.totalHops =
      s.totalHops ∧
    (updateState t source destination edgeCost current s).1.totalProp =
      s.totalProp := by
  have hmain :
      (updateState t source destination edgeCost current s).1 = s := by
    unfold updateState at h ⊢
    dsimp only at h ⊢
    split at h
    · exact absurd h (by simp)
    · rename_i hfound
      rw [if_neg hfound]
  exact ⟨hmain, by rw [hmain], by rw [hmain], by rw [hmain], by rw [hmain]⟩

/-- Witness for C5: a concrete blocked call (the C7 input: the only link is
C-D, the call is A→B), on which the hypotheses of
`C5_blocked_no_side_effects` hold by evaluation. -/
theorem C5_blocked_no_side_effects_witness :
    (updateState statT 0 1 (updateSHPF statS0.availCap) 0 statS0).1 =
      statS0 :=
  (C5_blocked_no_side_effects statT 0 1 (updateSHPF statS0.availCap) 0
    statS0 (by with_unfolding_all rfl)).1

/-! ## C2, C3, C7: concrete runs refuting / exhibiting the claimed behaviour -/

/-- C2: in the SHPO policy run on `shpoWork` (five one-hop calls that
saturate A-B, B-C, C-D, A-E, E-D, then a call A→D), the code admits all six
calls — in particular the final call A→D — although at that moment the
hop-count shortest-path distance over the currently-available network is 3
while over the fully-available network it is 2, so the claim requires the
call to be blocked.  (The code's "empty network" pass reuses the SHPF cost
array, in which saturated links have weight 0, so it returns the hop count
3 of a zero-cost path A-B-C-D instead of the true empty-network hop
distance 2.) -/
theorem C2_shpo_admits_despite_longer_available_path :
    (runPolicy shpoT Policy.SHPO shpoS0).succCalls = 6 ∧
    (runPolicy shpoT Policy.SHPO shpoS0).blockedCalls = 0 ∧
    specHopDist (timeUpdate 5 (runPrefix shpoT Policy.SHPO shpoS0 5)).availCap
      0 3 = some 3 ∧
    specHopDist shpoT.capacity 0 3 = some 2 :=
  ⟨by with_unfolding_all rfl, by with_unfolding_all rfl,
   by with_unfolding_all rfl, by with_unfolding_all rfl⟩

/-- C3: in the LLP policy run on `llpWork` (nine overlapping calls A→C over
a capacity-10 link, then a tenth call A→C), the tenth call is routed on the
direct link A-C whose LLP weight is 9/10, although the two-hop path A-D-C
has additive weight 0 and positive available capacity — the path search
does not minimise the additive sum of the LLP weights, because
`int alt = dist[u] + edgeCost[u][j]` truncates every fractional weight to
0.  The per-link weights themselves do equal `1 - available/capacity`. -/
theorem C3_llp_search_ignores_fractional_weights :
    ((processEvent llpT Policy.LLP (runPrefix llpT Policy.LLP llpS0 9)
        9).events.getD 9 default).resources 0 2 = 1 ∧
    ((processEvent llpT Policy.LLP (runPrefix llpT Policy.LLP llpS0 9)
        9).events.getD 9 default).resources 0 3 = 0 ∧
    ((processEvent llpT Policy.LLP (runPrefix llpT Policy.LLP llpS0 9)
        9).events.getD 9 default).resources 3 2 = 0 ∧
    updateLLP llpT
      (timeUpdate 9 (runPrefix llpT Policy.LLP llpS0 9)).availCap 0 2 =
      9 / 10 ∧
    addCost
      (updateLLP llpT
        (timeUpdate 9 (runPrefix llpT Policy.LLP llpS0 9)).availCap)
      0 [2] = 9 / 10 ∧
    addCost
      (updateLLP llpT
        (timeUpdate 9 (runPrefix llpT Policy.LLP llpS0 9)).availCap)
      0 [3, 2] = 0 ∧
    (timeUpdate 9 (runPrefix llpT Policy.LLP llpS0 9)).availCap 0 3 = 10 ∧
    (timeUpdate 9 (runPrefix llpT Policy.LLP llpS0 9)).availCap 3 2 = 10 :=
  ⟨by with_unfolding_all rfl, by with_unfolding_all rfl,
   by with_unfolding_all rfl, by with_unfolding_all rfl,
   by with_unfolding_all rfl, by with_unfolding_all rfl,
   by with_unfolding_all rfl, by with_unfolding_all rfl⟩

/-- C7: on the `statWork` run (a single call A→B with the only link being
C-D), the call is blocked, so after the run `succCalls = 0` while the code
unconditionally computes `avgHop = totalHops/succCalls` and
`avgProp = totalProp/succCalls` — divisions whose divisor is zero, which
the claim requires to be impossible. -/
theorem C7_zero_admitted_unguarded_division :
    (runPolicy statT Policy.SHPF statS0).succCalls = 0 ∧
    (runPolicy statT Policy.SHPF statS0).blockedCalls = 1 ∧
    (runPolicy statT Policy.SHPF statS0).totalCalls = 1 ∧
    ((runPolicy statT Policy.SHPF statS0).succCalls : ℚ) = 0 :=
  ⟨by with_unfolding_all rfl, by with_unfolding_all rfl,
   by with_unfolding_all rfl, by with_unfolding_all rfl⟩

/-! ## C8: the parsed event fields are never mutated -/

theorem sameStatic_refl (e : CallEvent) : sameStatic e e :=
  ⟨rfl, rfl, rfl, rfl, rfl⟩

theorem sameStatic_trans {e f g : CallEvent} (h1 : sameStatic e f)
    (h2 : sameStatic f g) : sameStatic e g :=
  ⟨h1.1.trans h2.1, h1.2.1.trans h2.2.1, h1.2.2.1.trans h2.2.2.1,
   h1.2.2.2.1.trans h2.2.2.2.1, h1.2.2.2.2.trans h2.2.2.2.2⟩

theorem getD_set_sameStatic (l : List CallEvent) (i : ℕ) (e1 : CallEvent)
    (h : sameStatic e1 (l.getD i default)) (j : ℕ) :
    sameStatic ((l.set i e1).getD j default) (l.getD j default) := by
  by_cases hi : i < l.length
  · by_cases hij : i = j
    · subst hij
      rw [getD_set_self l i e1 hi]
      exact h
    · rw [getD_set_ne l i j e1 hij]
      exact sameStatic_refl _
  · rw [List.set_eq_of_length_le (le_of_not_lt hi)]
    exact sameStatic_refl _

theorem timeUpdateStep_sameStatic (i : ℕ) (s : SimState) (j k : ℕ) :
    sameStatic ((timeUpdateStep i s j).events.getD k default)
      (s.events.getD k default) := by
  unfold timeUpdateStep
  dsimp only
  split
  · refine getD_set_sameStatic _ _ _ ?_ _
    exact ⟨rfl, rfl, rfl, rfl, rfl⟩
  · exact sameStatic_refl _

theorem timeUpdate_sameStatic (i : ℕ) (s : SimState) (k : ℕ) :
    sameStatic ((timeUpdate i s).events.getD k default)
      (s.events.getD k default) := by
  unfold timeUpdate
  generalize List.range i = l
  induction l generalizing s with
  | nil => exact sameStatic_refl _
  | cons j rest ih =>
    rw [List.foldl_cons]
    exact sameStatic_trans (ih (timeUpdateStep i s j))
      (timeUpdateStep_sameStatic i s j k)

theorem setRunning_sameStatic (s : SimState) (i : ℕ) (b : Bool) (k : ℕ) :
    sameStatic ((setRunning s i b).events.getD k default)
      (s.events.getD k default) := by
  unfold setRunning
  refine getD_set_sameStatic _ _ _ ?_ _
  exact ⟨rfl, rfl, rfl, rfl, rfl⟩

theorem reserveWalk_sameStatic (t : Topo) (prev : List (Option (Fin 26)))
    (current fuel : ℕ) (curr : Fin 26) (s : SimState) (k : ℕ) :
    sameStatic ((reserveWalk t prev current fuel curr s).events.getD k
      default) (s.events.getD k default) := by
  induction fuel generalizing curr s with
  | zero => exact sameStatic_refl _
  | succ n ih =>
    unfold reserveWalk
    dsimp only
    cases pget prev curr with
    | none => exact sameStatic_refl _
    | some p =>
      dsimp only
      refine sameStatic_trans (ih p _) (getD_set_sameStatic _ _ _ ?_ _)
      exact ⟨rfl, rfl, rfl, rfl, rfl⟩

theorem updateState_sameStatic (t : Topo) (source destination : Fin 26)
    (edgeCost : Mat ℚ) (current : ℕ) (s : SimState) (k : ℕ) :
    sameStatic
      ((updateState t source destination edgeCost current s).1.events.getD k
        default) (s.events.getD k default) := by
  unfold updateState
  dsimp only
  split
  · exact reserveWalk_sameStatic t _ current 26 destination s k
  · exact sameStatic_refl _

theorem loadPhase_sameStatic (t : Topo) (p : Policy) (i : ℕ) (s : SimState)
    (k : ℕ) :
    sameStatic ((loadPhase t p i s).events.getD k default)
      (s.events.getD k default) := by
  have h : sameStatic
      ((setRunning (timeUpdate i s) i true).events.getD k default)
      (s.events.getD k default) :=
    sameStatic_trans (setRunning_sameStatic (timeUpdate i s) i true k)
      (timeUpdate_sameStatic i s k)
  cases p <;> exact h

theorem blockCall_sameStatic (s : SimState) (i k : ℕ) :
    sameStatic ((blockCall s i).events.getD k default)
      (s.events.getD k default) :=
  setRunning_sameStatic s i false k

theorem succCall_sameStatic (s : SimState) (k : ℕ) :
    sameStatic ((succCall s).events.getD k default)
      (s.events.getD k default) :=
  sameStatic_refl _

theorem sameStatic_ite {c : Prop} [Decidable c] {a b : SimState}
    {f : CallEvent} (k : ℕ)
    (h1 : sameStatic (a.events.getD k default) f)
    (h2 : sameStatic (b.events.getD k default) f) :
    sameStatic ((if c then a else b).events.getD k default) f := by
  split
  · exact h1
  · exact h2

theorem decidePhase_sameStatic (t : Topo) (p : Policy) (i : ℕ)
    (s : SimState) (k : ℕ) :
    sameStatic ((decidePhase t p i s).events.getD k default)
      (s.events.getD k default) := by
  unfold decidePhase
  cases p with
  | SHPO =>
    dsimp only
    exact sameStatic_ite k (blockCall_sameStatic s i k)
      (sameStatic_trans (succCall_sameStatic _ k)
        (updateState_sameStatic t _ _ _ i s k))
  | SHPF =>
    dsimp only
    exact sameStatic_ite k
      (sameStatic_trans (succCall_sameStatic _ k)
        (updateState_sameStatic t _ _ _ i s k))
      (sameStatic_trans (blockCall_sameStatic _ i k)
        (updateState_sameStatic t _ _ _ i s k))
  | SDPF =>
    dsimp only
    exact sameStatic_ite k
      (sameStatic_trans (succCall_sameStatic _ k)
        (updateState_sameStatic t _ _ _ i s k))
      (sameStatic_trans (blockCall_sameStatic _ i k)
        (updateState_sameStatic t _ _ _ i s k))
  | LLP =>
    dsimp only
    exact sameStatic_ite k
      (sameStatic_trans (succCall_sameStatic _ k)
        (updateState_sameStatic t _ _ _ i s k))
      (sameStatic_trans (blockCall_sameStatic _ i k)
        (updateState_sameStatic t _ _ _ i s k))
  | MFC =>
    dsimp only
    exact sameStatic_ite k
      (sameStatic_trans (succCall_sameStatic _ k)
        (updateState_sameStatic t _ _ _ i s k))
      (sameStatic_trans (blockCall_sameStatic _ i k)
        (updateState_sameStatic t _ _ _ i s k))

theorem processEvent_sameStatic (t : Topo) (p : Policy) (s : SimState)
    (i k : ℕ) :
    sameStatic ((processEvent t p s i).events.getD k default)
      (s.events.getD k default) :=
  sameStatic_trans (decidePhase_sameStatic t p i (loadPhase t p i s) k)
    (loadPhase_sameStatic t p i s k)

theorem runPrefix_sameStatic (t : Topo) (p : Policy) (s : SimState)
    (n k : ℕ) :
    sameStatic ((runPrefix t p s n).events.getD k default)
      (s.events.getD k default) := by
  unfold runPrefix
  generalize List.range n = l
  induction l generalizing s with
  | nil => exact sameStatic_refl _
  | cons j rest ih =>
    rw [List.foldl_cons]
    exact sameStatic_trans (ih (processEvent t p s j))
      (processEvent_sameStatic t p s j k)

theorem clearValues_sameStatic (t : Topo) (s : SimState) (k : ℕ) :
    sameStatic ((clearValues t s).events.getD k default)
      (s.events.getD k default) := by
  unfold clearValues
  dsimp only
  have hd : CallEvent.reset default = default := rfl
  rw [show (default : CallEvent) = CallEvent.reset default from rfl,
    List.getD_map s.events default CallEvent.reset]
  exact ⟨rfl, rfl, rfl, rfl, rfl⟩

/-- C8: the parsed `startTime`, `duration`, `endTime`, `source` and
`destination` fields of every event are never modified, neither by any
number of steps of any policy's event loop nor by the between-policies
reset `clearValues` — only `running` and `resources` are mutated. -/
theorem C8_parsed_fields_never_mutated (t : Topo) (p : Policy) (s : SimState)
    (n k : ℕ) :
    sameStatic ((runPrefix t p s n).events.getD k default)
      (s.events.getD k default) ∧
    sameStatic ((clearValues t s).events.getD k default)
      (s.events.getD k default) :=
  ⟨runPrefix_sameStatic t p s n k, clearValues_sameStatic t s k⟩

/-! ## Invariant preservation: symmetry, non-negativity, conservation -/

theorem releaseStep_preserves (a r : Mat ℤ) (km : Fin 26 × Fin 26)
    (ha : MatSymm a) (hr : MatSymm r) (hnn : ∀ u v, 0 ≤ r u v) :
    MatSymm (releaseStep (a, r) km).1 ∧ MatSymm (releaseStep (a, r) km).2 ∧
    (∀ u v, 0 ≤ (releaseStep (a, r) km).2 u v) ∧
    (∀ u v, (releaseStep (a, r) km).1 u v + (releaseStep (a, r) km).2 u v =
      a u v + r u v) := by
  unfold releaseStep
  dsimp only
  split
  · refine ⟨?_, ?_, ?_, ?_⟩
    · intro u v
      dsimp only
      by_cases h : (u = km.1 ∧ v = km.2) ∨ (u = km.2 ∧ v = km.1)
      · have h2 : (v = km.1 ∧ u = km.2) ∨ (v = km.2 ∧ u = km.1) := by
          tauto
        rw [if_pos h, if_pos h2]
      · have h2 : ¬ ((v = km.1 ∧ u = km.2) ∨ (v = km.2 ∧ u = km.1)) := by
          tauto
        rw [if_neg h, if_neg h2]
        exact ha u v
    · intro u v
      dsimp only
      by_cases h : (u = km.1 ∧ v = km.2) ∨ (u = km.2 ∧ v = km.1)
      · have h2 : (v = km.1 ∧ u = km.2) ∨ (v = km.2 ∧ u = km.1) := by
          tauto
        rw [if_pos h, if_pos h2]
      · have h2 : ¬ ((v = km.1 ∧ u = km.2) ∨ (v = km.2 ∧ u = km.1)) := by
          tauto
        rw [if_neg h, if_neg h2]
        exact hr u v
    · intro u v
      dsimp only
      by_cases h : (u = km.1 ∧ v = km.2) ∨ (u = km.2 ∧ v = km.1)
      · rw [if_pos h]
      · rw [if_neg h]
        exact hnn u v
    · intro u v
      dsimp only
      by_cases h : (u = km.1 ∧ v = km.2) ∨ (u = km.2 ∧ v = km.1)
      · rw [if_pos h, if_pos h]
        rcases h with ⟨hu, hv⟩ | ⟨hu, hv⟩
        · subst hu; subst hv
          rw [ha km.1 km.2]
          ring
        · subst hu; subst hv
          rw [hr km.2 km.1]
          ring
      · rw [if_neg h, if_neg h]
  · exact ⟨ha, hr, hnn, fun u v => rfl⟩

theorem releaseFold_preserves (l : List (Fin 26 × Fin 26)) (a r : Mat ℤ)
    (ha : MatSymm a) (hr : MatSymm r) (hnn : ∀ u v, 0 ≤ r u v) :
    MatSymm (l.foldl releaseStep (a, r)).1 ∧
    MatSymm (l.foldl releaseStep (a, r)).2 ∧
    (∀ u v, 0 ≤ (l.foldl releaseStep (a, r)).2 u v) ∧
    (∀ u v, (l.foldl releaseStep (a, r)).1 u v +
      (l.foldl releaseStep (a, r)).2 u v = a u v + r u v) := by
  induction l generalizing a r with
  | nil => exact ⟨ha, hr, hnn, fun u v => rfl⟩
  | cons km rest ih =>
    rw [List.foldl_cons]
    obtain ⟨h1, h2, h3, h4⟩ := releaseStep_preserves a r km ha hr hnn
    obtain ⟨g1, g2, g3, g4⟩ :=
      ih (releaseStep (a, r) km).1 (releaseStep (a, r) km).2 h1 h2 h3
    refine ⟨g1, g2, g3, fun u v => ?_⟩
    rw [g4 u v, h4 u v]

theorem releaseEvent_preserves (a r : Mat ℤ)
    (ha : MatSymm a) (hr : MatSymm r) (hnn : ∀ u v, 0 ≤ r u v) :
    MatSymm (releaseEvent a r).1 ∧ MatSymm (releaseEvent a r).2 ∧
    (∀ u v, 0 ≤ (releaseEvent a r).2 u v) ∧
    (∀ u v, (releaseEvent a r).1 u v + (releaseEvent a r).2 u v =
      a u v + r u v) := by
  rw [releaseEvent_eq]
  exact releaseFold_preserves pairList a r ha hr hnn

theorem resSum_cons (e : CallEvent) (l : List CallEvent) (u v : Fin 26) :
    resSum (e :: l) u v = e.resources u v + resSum l u v := by
  simp [resSum]

theorem resSum_set (l : List CallEvent) (j : ℕ) (e1 : CallEvent)
    (h : j < l.length) (u v : Fin 26) :
    resSum (l.set j e1) u v =
      resSum l u v - (l.getD j default).resources u v + e1.resources u v := by
  induction l generalizing j with
  | nil => simp at h
  | cons hd tl ih =>
    cases j with
    | zero =>
      rw [List.set_cons_zero, resSum_cons, resSum_cons, List.getD_cons_zero]
      ring
    | succ n =>
      rw [List.set_cons_succ, resSum_cons, resSum_cons, List.getD_cons_succ]
      rw [ih n (by simpa using Nat.lt_of_succ_lt_succ h)]
      ring

theorem getD_mem {α : Type} [Inhabited α] (l : List α) (j : ℕ)
    (h : j < l.length) : l.getD j default ∈ l := by
  rw [List.getD_eq_getElem?_getD, List.getElem?_eq_getElem h]
  simp [List.getElem_mem h]

theorem goodState_timeUpdateStep (t : Topo) (i : ℕ) (s : SimState) (j : ℕ)
    (hg : GoodState t s) : GoodState t (timeUpdateStep i s j) := by
  obtain ⟨ha, hres, hnn, hcons⟩ := hg
  unfold timeUpdateStep
  dsimp only
  split
  case isFalse => exact ⟨ha, hres, hnn, hcons⟩
  case isTrue hcond =>
    have hj : j < s.events.length := by
      by_contra hge
      rw [List.getD_eq_default _ _ (le_of_not_lt hge)] at hcond
      have hrun : (default : CallEvent).running = false := rfl
      rw [hrun] at hcond
      exact absurd hcond.1 (by simp)
    have hmem : s.events.getD j default ∈ s.events := getD_mem _ _ hj
    obtain ⟨g1, g2, g3, g4⟩ := releaseEvent_preserves s.availCap
      (s.events.getD j default).resources ha (hres _ hmem) (hnn _ hmem)
    refine ⟨by dsimp only; exact g1, ?_, ?_, ?_⟩
    · dsimp only
      intro e he
      rcases List.mem_or_eq_of_mem_set he with he2 | rfl
      · exact hres e he2
      · dsimp only
        exact g2
    · dsimp only
      intro e he
      rcases List.mem_or_eq_of_mem_set he with he2 | rfl
      · exact hnn e he2
      · dsimp only
        exact g3
    · intro u v
      dsimp only
      rw [resSum_set _ _ _ hj]
      dsimp only
      have hc := hcons u v
      have h4 := g4 u v
      omega

theorem goodState_setRunning (t : Topo) (s : SimState) (i : ℕ) (b : Bool)
    (hg : GoodState t s) : GoodState t (setRunning s i b) := by
  obtain ⟨ha, hres, hnn, hcons⟩ := hg
  unfold setRunning
  by_cases hi : i < s.events.length
  · refine ⟨ha, ?_, ?_, ?_⟩
    · intro e he
      rcases List.mem_or_eq_of_mem_set he with he2 | rfl
      · exact hres e he2
      · dsimp only
        exact hres _ (getD_mem _ _ hi)
    · intro e he
      rcases List.mem_or_eq_of_mem_set he with he2 | rfl
      · exact hnn e he2
      · dsimp only
        exact hnn _ (getD_mem _ _ hi)
    · intro u v
      show s.availCap u v + _ = _
      rw [resSum_set _ _ _ hi]
      dsimp only
      have hc := hcons u v
      omega
  · rw [List.set_eq_of_length_le (le_of_not_lt hi)]
    exact ⟨ha, hres, hnn, hcons⟩

theorem goodState_setCost (t : Topo) (s : SimState) (c : Mat ℚ)
    (hg : GoodState t s) : GoodState t { s with cost := c } := hg

theorem goodState_timeUpdate (t : Topo) (i : ℕ) (s : SimState)
    (hg : GoodState t s) : GoodState t (timeUpdate i s) := by
  unfold timeUpdate
  generalize List.range i = l
  induction l generalizing s with
  | nil => exact hg
  | cons j rest ih =>
    rw [List.foldl_cons]
    exact ih _ (goodState_timeUpdateStep t i s j hg)

theorem goodState_loadPhase (t : Topo) (p : Policy) (i : ℕ) (s : SimState)
    (hg : GoodState t s) : GoodState t (loadPhase t p i s) := by
  have h1 : GoodState t (setRunning (timeUpdate i s) i true) :=
    goodState_setRunning t _ i true (goodState_timeUpdate t i s hg)
  cases p <;> exact h1

theorem timeUpdateStep_events_length (i : ℕ) (s : SimState) (j : ℕ) :
    (timeUpdateStep i s j).events.length = s.events.length := by
  unfold timeUpdateStep
  dsimp only
  split
  · exact List.length_set s.events j _
  · rfl

theorem timeUpdate_events_length (i : ℕ) (s : SimState) :
    (timeUpdate i s).events.length = s.events.length := by
  unfold timeUpdate
  generalize List.range i = l
  induction l generalizing s with
  | nil => rfl
  | cons j rest ih =>
    rw [List.foldl_cons, ih, timeUpdateStep_events_length]

theorem setRunning_events_length (s : SimState) (i : ℕ) (b : Bool) :
    (setRunning s i b).events.length = s.events.length :=
  List.length_set s.events i _

theorem loadPhase_events_length (t : Topo) (p : Policy) (i : ℕ)
    (s : SimState) : (loadPhase t p i s).events.length = s.events.length := by
  have h1 : (setRunning (timeUpdate i s) i true).events.length =
      s.events.length := by
    rw [setRunning_events_length, timeUpdate_events_length]
  cases p <;> exact h1

theorem goodState_reserveWalk (t : Topo) (prev : List (Option (Fin 26)))
    (current : ℕ) (fuel : ℕ) (curr : Fin 26) (s : SimState)
    (hg : GoodState t s) (hi : current < s.events.length) :
    GoodState t (reserveWalk t prev current fuel curr s) ∧
    (reserveWalk t prev current fuel curr s).events.length =
      s.events.length := by
  induction fuel generalizing curr s with
  | zero => exact ⟨hg, rfl⟩
  | succ n ih =>
    obtain ⟨ha, hres, hnn, hcons⟩ := hg
    unfold reserveWalk
    dsimp only
    cases hp : pget prev curr with
    | none => exact ⟨⟨ha, hres, hnn, hcons⟩, rfl⟩
    | some p =>
      dsimp only
      have hmem : s.events.getD current default ∈ s.events :=
        getD_mem _ _ hi
      have hgood1 : GoodState t
          { s with
            availCap := fun u v =>
              if (u = curr ∧ v = p) ∨ (u = p ∧ v = curr)
              then s.availCap p curr - 1 else s.availCap u v
            events := s.events.set current
              { s.events.getD current default with
                resources := fun u v =>
                  if (u = curr ∧ v = p) ∨ (u = p ∧ v = curr)
                  then (s.events.getD current default).resources p curr + 1
                  else (s.events.getD current default).resources u v }
            totalProp := s.totalProp + t.propDelay curr p
            totalHops := s.totalHops + 1 } := by
        refine ⟨?_, ?_, ?_, ?_⟩
        · intro u v
          dsimp only
          by_cases h : (u = curr ∧ v = p) ∨ (u = p ∧ v = curr)
          · have h2 : (v = curr ∧ u = p) ∨ (v = p ∧ u = curr) := by tauto
            rw [if_pos h, if_pos h2]
          · have h2 : ¬ ((v = curr ∧ u = p) ∨ (v = p ∧ u = curr)) := by
              tauto
            rw [if_neg h, if_neg h2]
            exact ha u v
        · dsimp only
          intro e he
          rcases List.mem_or_eq_of_mem_set he with he2 | rfl
          · exact hres e he2
          · intro u v
            dsimp only
            by_cases h : (u = curr ∧ v = p) ∨ (u = p ∧ v = curr)
            · have h2 : (v = curr ∧ u = p) ∨ (v = p ∧ u = curr) := by
                tauto
              rw [if_pos h, if_pos h2]
            · have h2 : ¬ ((v = curr ∧ u = p) ∨ (v = p ∧ u = curr)) := by
                tauto
              rw [if_neg h, if_neg h2]
              exact hres _ hmem u v
        · dsimp only
          intro e he
          rcases List.mem_or_eq_of_mem_set he with he2 | rfl
          · exact hnn e he2
          · intro u v
            dsimp only
            by_cases h : (u = curr ∧ v = p) ∨ (u = p ∧ v = curr)
            · rw [if_pos h]
              have := hnn _ hmem p curr
              omega
            · rw [if_neg h]
              exact hnn _ hmem u v
        · intro u v
          dsimp only
          rw [resSum_set _ _ _ hi]
          dsimp only
          have hc := hcons u v
          by_cases h : (u = curr ∧ v = p) ∨ (u = p ∧ v = curr)
          · rw [if_pos h, if_pos h]
            rcases h with ⟨hu, hv⟩ | ⟨hu, hv⟩
            · subst hu; subst hv
              have h1 := ha v u
              have h2 := hres _ hmem v u
              omega
            · subst hu; subst hv
              omega
          · rw [if_neg h, if_neg h]
            omega
      have hi1 : current <
          (s.events.set current
            { s.events.getD current default with
              resources := fun u v =>
                if (u = curr ∧ v = p) ∨ (u = p ∧ v = curr)
                then (s.events.getD current default).resources p curr + 1
                else (s.events.getD current default).resources u v }).length := by
        rw [List.length_set]
        exact hi
      obtain ⟨g, hlen⟩ := ih p _ hgood1 hi1
      refine ⟨g, ?_⟩
      rw [hlen]
      exact List.length_set s.events current _

theorem goodState_updateState (t : Topo) (source destination : Fin 26)
    (edgeCost : Mat ℚ) (current : ℕ) (s : SimState)
    (hg : GoodState t s) (hi : current < s.events.length) :
    GoodState t (updateState t source destination edgeCost current s).1 ∧
    (updateState t source destination edgeCost current s).1.events.length =
      s.events.length := by
  unfold updateState
  dsimp only
  split
  · exact goodState_reserveWalk t _ current 26 destination s hg hi
  · exact ⟨hg, rfl⟩

theorem goodState_blockCall (t : Topo) (s : SimState) (i : ℕ)
    (hg : GoodState t s) : GoodState t (blockCall s i) := by
  have h1 : GoodState t (setRunning s i false) :=
    goodState_setRunning t s i false hg
  exact h1

theorem goodState_succCall (t : Topo) (s : SimState)
    (hg : GoodState t s) : GoodState t (succCall s) := hg

theorem blockCall_events_length (s : SimState) (i : ℕ) :
    (blockCall s i).events.length = s.events.length :=
  setRunning_events_length s i false

theorem goodState_length_ite (t : Topo) {c : Prop} [Decidable c]
    {a b : SimState} {n : ℕ}
    (h1 : GoodState t a ∧ a.events.length = n)
    (h2 : GoodState t b ∧ b.events.length = n) :
    GoodState t (if c then a else b) ∧
    (if c then a else b).events.length = n := by
  split
  · exact h1
  · exact h2

theorem goodState_decidePhase (t : Topo) (p : Policy) (i : ℕ) (s : SimState)
    (hg : GoodState t s) (hi : i < s.events.length) :
    GoodState t (decidePhase t p i s) ∧
    (decidePhase t p i s).events.length = s.events.length := by
  unfold decidePhase
  cases p with
  | SHPO =>
    dsimp only
    obtain ⟨g, hlen⟩ := goodState_updateState t
      (s.events.getD i default).source
      (s.events.getD i default).destination s.cost i s hg hi
    exact goodState_length_ite t
      ⟨goodState_blockCall t s i ⟨hg.1, hg.2.1, hg.2.2.1, hg.2.2.2⟩,
        blockCall_events_length s i⟩
      ⟨goodState_succCall t _ g, hlen⟩
  | SHPF =>
    dsimp only
    obtain ⟨g, hlen⟩ := goodState_updateState t
      (s.events.getD i default).source
      (s.events.getD i default).destination _ i s hg hi
    exact goodState_length_ite t
      ⟨goodState_succCall t _ g, hlen⟩
      ⟨goodState_blockCall t _ i g,
        by rw [blockCall_events_length, hlen]⟩
  | SDPF =>
    dsimp only
    obtain ⟨g, hlen⟩ := goodState_updateState t
      (s.events.getD i default).source
      (s.events.getD i default).destination _ i s hg hi
    exact goodState_length_ite t
      ⟨goodState_succCall t _ g, hlen⟩
      ⟨goodState_blockCall t _ i g,
        by rw [blockCall_events_length, hlen]⟩
  | LLP =>
    dsimp only
    obtain ⟨g, hlen⟩ := goodState_updateState t
      (s.events.getD i default).source
      (s.events.getD i default).destination _ i s hg hi
    exact goodState_length_ite t
      ⟨goodState_succCall t _ g, hlen⟩
      ⟨goodState_blockCall t _ i g,
        by rw [blockCall_events_length, hlen]⟩
  | MFC =>
    dsimp only
    obtain ⟨g, hlen⟩ := goodState_updateState t
      (s.events.getD i default).source
      (s.events.getD i default).destination _ i s hg hi
    exact goodState_length_ite t
      ⟨goodState_succCall t _ g, hlen⟩
      ⟨goodState_blockCall t _ i g,
        by rw [blockCall_events_length, hlen]⟩

theorem goodState_processEvent (t : Topo) (p : Policy) (s : SimState)
    (i : ℕ) (hg : GoodState t s) (hi : i < s.events.length) :
    GoodState t (processEvent t p s i) ∧
    (processEvent t p s i).events.length = s.events.length := by
  unfold processEvent
  have hg1 : GoodState t (loadPhase t p i s) := goodState_loadPhase t p i s hg
  have hi1 : i < (loadPhase t p i s).events.length := by
    rw [loadPhase_events_length]
    exact hi
  obtain ⟨g, hlen⟩ := goodState_decidePhase t p i (loadPhase t p i s) hg1 hi1
  refine ⟨g, ?_⟩
  rw [hlen, loadPhase_events_length]

theorem runPrefix_succ (t : Topo) (p : Policy) (s : SimState) (k : ℕ) :
    runPrefix t p s (k + 1) = processEvent t p (runPrefix t p s k) k := by
  unfold runPrefix
  rw [List.range_succ, List.foldl_append, List.foldl_cons, List.foldl_nil]

theorem goodState_runPrefix (t : Topo) (p : Policy) (s : SimState) (k : ℕ)
    (hg : GoodState t s) (hk : k ≤ s.events.length) :
    GoodState t (runPrefix t p s k) ∧
    (runPrefix t p s k).events.length = s.events.length := by
  induction k with
  | zero => exact ⟨hg, rfl⟩
  | succ n ih =>
    obtain ⟨g, hlen⟩ := ih (Nat.le_of_succ_le hk)
    rw [runPrefix_succ]
    obtain ⟨g2, hlen2⟩ := goodState_processEvent t p _ n g
      (by rw [hlen]; exact hk)
    exact ⟨g2, by rw [hlen2, hlen]⟩

theorem loadTopoStep_capacity_symm (t : Topo) (e : TopoEntry)
    (h : MatSymm t.capacity) : MatSymm (loadTopoStep t e).capacity := by
  intro u v
  unfold loadTopoStep
  dsimp only
  by_cases hc : (u = e.src ∧ v = e.dst) ∨ (u = e.dst ∧ v = e.src)
  · have hc2 : (v = e.src ∧ u = e.dst) ∨ (v = e.dst ∧ u = e.src) := by tauto
    rw [if_pos hc, if_pos hc2]
  · have hc2 : ¬ ((v = e.src ∧ u = e.dst) ∨ (v = e.dst ∧ u = e.src)) := by
      tauto
    rw [if_neg hc, if_neg hc2]
    exact h u v

theorem loadTopo_capacity_symm (entries : List TopoEntry) :
    MatSymm (loadTopo entries).capacity := by
  unfold loadTopo
  have main : ∀ (l : List TopoEntry) (t0 : Topo), MatSymm t0.capacity →
      MatSymm (l.foldl loadTopoStep t0).capacity := by
    intro l
    induction l with
    | nil => exact fun t0 h => h
    | cons e rest ih =>
      intro t0 h
      rw [List.foldl_cons]
      exact ih _ (loadTopoStep_capacity_symm t0 e h)
  exact main entries ⟨fun _ _ => 0, fun _ _ => 0⟩ (fun u v => rfl)

theorem resSum_loadEvents (work : List WorkEntry) (u v : Fin 26) :
    resSum (loadEvents work) u v = 0 := by
  induction work with
  | nil => rfl
  | cons w rest ih =>
    unfold loadEvents at ih ⊢
    rw [List.map_cons, resSum_cons, ih]
    show (0 : ℤ) + 0 = 0
    ring

theorem goodState_initState (entries : List TopoEntry)
    (work : List WorkEntry) :
    GoodState (loadTopo entries) (initState entries work) := by
  refine ⟨loadTopo_capacity_symm entries, ?_, ?_, ?_⟩
  · intro e he
    obtain ⟨w, hw, rfl⟩ := List.mem_map.mp he
    intro u v
    rfl
  · intro e he
    obtain ⟨w, hw, rfl⟩ := List.mem_map.mp he
    intro u v
    exact le_refl 0
  · intro u v
    show (loadTopo entries).capacity u v + resSum (loadEvents work) u v = _
    rw [resSum_loadEvents]
    ring

theorem resSum_reset (l : List CallEvent) (u v : Fin 26) :
    resSum (l.map CallEvent.reset) u v = 0 := by
  induction l with
  | nil => rfl
  | cons e rest ih =>
    rw [List.map_cons, resSum_cons, ih]
    show (0 : ℤ) + 0 = 0
    ring

theorem goodState_clearValues (t : Topo) (s : SimState)
    (hcap : MatSymm t.capacity) : GoodState t (clearValues t s) := by
  refine ⟨hcap, ?_, ?_, ?_⟩
  · intro e he
    obtain ⟨e0, he0, rfl⟩ := List.mem_map.mp he
    intro u v
    rfl
  · intro e he
    obtain ⟨e0, he0, rfl⟩ := List.mem_map.mp he
    intro u v
    exact le_refl 0
  · intro u v
    show t.capacity u v + resSum (s.events.map CallEvent.reset) u v = _
    rw [resSum_reset]
    ring

/-- C1: capacity conservation — on every link, available capacity plus the
units recorded in all events' reservation tables equals the immutable
capacity: (i) right after topology load, (ii) after each release performed
by the expiry scan (`timeUpdateStep`, whose body is one release), (iii)
after each reservation step of an admission (`reserveWalk` at every fuel,
i.e. after every prefix of the reservation walk), and (iv) after every
prefix of every policy's event loop. -/
theorem C1_capacity_conservation :
    (∀ (entries : List TopoEntry) (work : List WorkEntry),
      Conserved (loadTopo entries) (initState entries work)) ∧
    (∀ (t : Topo) (i : ℕ) (s : SimState) (j : ℕ), GoodState t s →
      Conserved t (timeUpdateStep i s j)) ∧
    (∀ (t : Topo) (prev : List (Option (Fin 26))) (current fuel : ℕ)
        (curr : Fin 26) (s : SimState), GoodState t s →
      current < s.events.length →
      Conserved t (reserveWalk t prev current fuel curr s)) ∧
    (∀ (entries : List TopoEntry) (work : List WorkEntry) (p : Policy)
        (k : ℕ), k ≤ work.length →
      Conserved (loadTopo entries)
        (runPrefix (loadTopo entries) p (initState entries work) k)) := by
  refine ⟨?_, ?_, ?_, ?_⟩
  · exact fun entries work => (goodState_initState entries work).2.2.2
  · exact fun t i s j hg => (goodState_timeUpdateStep t i s j hg).2.2.2
  · exact fun t prev current fuel curr s hg hi =>
      (goodState_reserveWalk t prev current fuel curr s hg hi).1.2.2.2
  · intro entries work p k hk
    have hlen : (initState entries work).events.length = work.length := by
      simp [initState, loadEvents]
    exact (goodState_runPrefix (loadTopo entries) p (initState entries work)
      k (goodState_initState entries work) (by rw [hlen]; exact hk)).1.2.2.2

/-- Witness for C1: the conservation invariant instantiated on the concrete
one-link, one-call input, with every hypothesis discharged there. -/
theorem C1_capacity_conservation_witness :
    Conserved (loadTopo statEntries)
      (timeUpdateStep 0 (initState statEntries statWork) 0) ∧
    Conserved (loadTopo statEntries)
      (runPrefix (loadTopo statEntries) Policy.SHPF
        (initState statEntries statWork) 1) :=
  ⟨C1_capacity_conservation.2.1 (loadTopo statEntries) 0
      (initState statEntries statWork) 0
      (goodState_initState statEntries statWork),
   C1_capacity_conservation.2.2.2 statEntries statWork Policy.SHPF 1
      (by decide)⟩

/-- C10: symmetry — the available-capacity table and every event's
reservation table are symmetric matrices: after topology load, after each
release of the expiry scan, after each reservation step of an admission,
after the between-policies reset, and after every prefix of every policy's
event loop. -/
theorem C10_symmetric_tables :
    (∀ (entries : List TopoEntry) (work : List WorkEntry),
      MatSymm (loadTopo entries).capacity ∧
      MatSymm (initState entries work).availCap ∧
      ∀ e ∈ (initState entries work).events, MatSymm e.resources) ∧
    (∀ (t : Topo) (i : ℕ) (s : SimState) (j : ℕ), GoodState t s →
      MatSymm (timeUpdateStep i s j).availCap ∧
      ∀ e ∈ (timeUpdateStep i s j).events, MatSymm e.resources) ∧
    (∀ (t : Topo) (prev : List (Option (Fin 26))) (current fuel : ℕ)
        (curr : Fin 26) (s : SimState), GoodState t s →
      current < s.events.length →
      MatSymm (reserveWalk t prev current fuel curr s).availCap ∧
      ∀ e ∈ (reserveWalk t prev current fuel curr s).events,
        MatSymm e.resources) ∧
    (∀ (t : Topo) (s : SimState), MatSymm t.capacity →
      MatSymm (clearValues t s).availCap ∧
      ∀ e ∈ (clearValues t s).events, MatSymm e.resources) ∧
    (∀ (entries : List TopoEntry) (work : List WorkEntry) (p : Policy)
        (k : ℕ), k ≤ work.length →
      MatSymm (runPrefix (loadTopo entries) p
        (initState entries work) k).availCap ∧
      ∀ e ∈ (runPrefix (loadTopo entries) p
        (initState entries work) k).events, MatSymm e.resources) := by
  refine ⟨?_, ?_, ?_, ?_, ?_⟩
  · intro entries work
    have h := goodState_initState entries work
    exact ⟨loadTopo_capacity_symm entries, h.1, h.2.1⟩
  · intro t i s j hg
    have h := goodState_timeUpdateStep t i s j hg
    exact ⟨h.1, h.2.1⟩
  · intro t prev current fuel curr s hg hi
    have h := (goodState_reserveWalk t prev current fuel curr s hg hi).1
    exact ⟨h.1, h.2.1⟩
  · intro t s hcap
    have h := goodState_clearValues t s hcap
    exact ⟨h.1, h.2.1⟩
  · intro entries work p k hk
    have hlen : (initState entries work).events.length = work.length := by
      simp [initState, loadEvents]
    have h := (goodState_runPrefix (loadTopo entries) p
      (initState entries work) k (goodState_initState entries work)
      (by rw [hlen]; exact hk)).1
    exact ⟨h.1, h.2.1⟩

/-- Witness for C10: the symmetry invariant instantiated on the concrete
one-link, one-call input, with every hypothesis discharged there. -/
theorem C10_symmetric_tables_witness :
    (MatSymm (clearValues (loadTopo statEntries)
        (initState statEntries statWork)).availCap ∧
      ∀ e ∈ (clearValues (loadTopo statEntries)
        (initState statEntries statWork)).events, MatSymm e.resources) ∧
    (MatSymm (runPrefix (loadTopo statEntries) Policy.SHPF
        (initState statEntries statWork) 1).availCap ∧
      ∀ e ∈ (runPrefix (loadTopo statEntries) Policy.SHPF
        (initState statEntries statWork) 1).events, MatSymm e.resources) :=
  ⟨C10_symmetric_tables.2.2.2.1 (loadTopo statEntries)
      (initState statEntries statWork) (loadTopo_capacity_symm statEntries),
   C10_symmetric_tables.2.2.2.2 statEntries statWork Policy.SHPF 1
      (by decide)⟩

/-! ## C4: exact characterisation of the expiry scan -/

theorem timeUpdateStep_not_triggered (i : ℕ) (s : SimState) (j : ℕ)
    (h : ¬ ((s.events.getD j default).running = true ∧
      (s.events.getD j default).endTime ≤
        (s.events.getD i default).startTime)) :
    timeUpdateStep i s j = s := by
  unfold timeUpdateStep
  dsimp only
  rw [if_neg h]

theorem timeUpdateStep_triggered (t : Topo) (i : ℕ) (s : SimState) (j : ℕ)
    (hg : GoodState t s)
    (h : (s.events.getD j default).running = true ∧
      (s.events.getD j default).endTime ≤
        (s.events.getD i default).startTime) :
    (∀ k, k ≠ j → (timeUpdateStep i s j).events.getD k default =
      s.events.getD k default) ∧
    ((timeUpdateStep i s j).events.getD j default).running = false ∧
    (∀ u v, ((timeUpdateStep i s j).events.getD j default).resources u v
      = 0) ∧
    (∀ u v, (timeUpdateStep i s j).availCap u v =
      s.availCap u v + (s.events.getD j default).resources u v) ∧
    sameStatic ((timeUpdateStep i s j).events.getD j default)
      (s.events.getD j default) := by
  obtain ⟨ha, hres, hnn, hcons⟩ := hg
  have hj : j < s.events.length := by
    by_contra hge
    rw [List.getD_eq_default _ _ (le_of_not_lt hge)] at h
    have hrun : (default : CallEvent).running = false := rfl
    rw [hrun] at h
    exact absurd h.1 (by simp)
  have hmem : s.events.getD j default ∈ s.events := getD_mem _ _ hj
  have hz : ∀ u v, (releaseEvent s.availCap
      (s.events.getD j default).resources).2 u v = 0 := by
    intro u v
    have h1 := releaseEvent_snd_nonpos s.availCap
      (s.events.getD j default).resources u v
    have h2 := (releaseEvent_preserves s.availCap
      (s.events.getD j default).resources ha (hres _ hmem)
      (hnn _ hmem)).2.2.1 u v
    exact le_antisymm h1 h2
  have h4 := (releaseEvent_preserves s.availCap
    (s.events.getD j default).resources ha (hres _ hmem) (hnn _ hmem)).2.2.2
  unfold timeUpdateStep
  dsimp only
  rw [if_pos h]
  refine ⟨?_, ?_, ?_, ?_, ?_⟩
  · intro k hk
    dsimp only
    exact getD_set_ne s.events j k _ (fun hjk => hk hjk.symm)
  · dsimp only
    rw [getD_set_self s.events j _ hj]
  · intro u v
    dsimp only
    conv_lhs => rw [getD_set_self s.events j _ hj]
    rw [CallEvent_resources_mk]
    exact hz u v
  · intro u v
    dsimp only
    have := h4 u v
    have := hz u v
    omega
  · dsimp only
    rw [getD_set_self s.events j _ hj]
    exact ⟨rfl, rfl, rfl, rfl, rfl⟩

theorem timeUpdate_fold_spec (t : Topo) (i : ℕ) (l : List ℕ) (s : SimState)
    (hg : GoodState t s) (hnd : l.Nodup) (hni : i ∉ l) :
    (∀ j, j ∉ l → (l.foldl (timeUpdateStep i) s).events.getD j default =
      s.events.getD j default) ∧
    (∀ j ∈ l, if expiresAt s i j = true
      then ((l.foldl (timeUpdateStep i) s).events.getD j default).running
          = false ∧
        (∀ u v, ((l.foldl (timeUpdateStep i) s).events.getD j
          default).resources u v = 0) ∧
        sameStatic ((l.foldl (timeUpdateStep i) s).events.getD j default)
          (s.events.getD j default)
      else (l.foldl (timeUpdateStep i) s).events.getD j default =
        s.events.getD j default) ∧
    (∀ u v, (l.foldl (timeUpdateStep i) s).availCap u v =
      s.availCap u v + ((l.filter (expiresAt s i)).map
        (fun j => (s.events.getD j default).resources u v)).sum) := by
  induction l generalizing s with
  | nil =>
    refine ⟨fun j hj => rfl, fun j hj => absurd hj (List.not_mem_nil j),
      fun u v => ?_⟩
    show s.availCap u v = s.availCap u v + 0
    ring
  | cons j rest ih =>
    rw [List.nodup_cons] at hnd
    have hij : i ≠ j := fun hh => hni (hh ▸ List.mem_cons_self j rest)
    have hirest : i ∉ rest := fun hh => hni (List.mem_cons_of_mem j hh)
    rw [List.foldl_cons]
    cases hexp : expiresAt s i j with
    | false =>
      have hnot : ¬ ((s.events.getD j default).running = true ∧
          (s.events.getD j default).endTime ≤
            (s.events.getD i default).startTime) := by
        intro hc
        have hc' : expiresAt s i j = true := by
          unfold expiresAt
          exact decide_eq_true hc
        rw [hexp] at hc'
        exact Bool.false_ne_true hc'
      rw [timeUpdateStep_not_triggered i s j hnot]
      obtain ⟨ih1, ih2, ih3⟩ := ih s hg hnd.2 hirest
      refine ⟨?_, ?_, ?_⟩
      · intro k hk
        exact ih1 k (fun hh => hk (List.mem_cons_of_mem j hh))
      · intro k hk
        rcases List.mem_cons.mp hk with rfl | hkrest
        · rw [hexp]
          simp only [Bool.false_eq_true, if_false]
          exact ih1 k hnd.1
        · exact ih2 k hkrest
      · intro u v
        rw [List.filter_cons_of_neg (by rw [hexp]; simp)]
        exact ih3 u v
    | true =>
      have hcond : (s.events.getD j default).running = true ∧
          (s.events.getD j default).endTime ≤
            (s.events.getD i default).startTime :=
        of_decide_eq_true hexp
      obtain ⟨tk1, tk2, tk3, tk4, tk5⟩ :=
        timeUpdateStep_triggered t i s j hg hcond
      have hg1 : GoodState t (timeUpdateStep i s j) :=
        goodState_timeUpdateStep t i s j hg
      have hexp_pres : ∀ k, k ≠ j →
          expiresAt (timeUpdateStep i s j) i k = expiresAt s i k := by
        intro k hk
        unfold expiresAt
        rw [tk1 k hk, tk1 i hij]
      obtain ⟨ih1, ih2, ih3⟩ := ih (timeUpdateStep i s j) hg1 hnd.2 hirest
      refine ⟨?_, ?_, ?_⟩
      · intro k hk
        have hkj : k ≠ j := fun hh => hk (hh ▸ List.mem_cons_self j rest)
        have hkrest : k ∉ rest := fun hh => hk (List.mem_cons_of_mem j hh)
        rw [ih1 k hkrest]
        exact tk1 k hkj
      · intro k hk
        rcases List.mem_cons.mp hk with rfl | hkrest
        · rw [hexp]
          simp only [if_true]
          rw [ih1 k hnd.1]
          exact ⟨tk2, tk3, tk5⟩
        · have hkj : k ≠ j := fun hh => hnd.1 (hh ▸ hkrest)
          have := ih2 k hkrest
          rw [hexp_pres k hkj, tk1 k hkj] at this
          exact this
      · intro u v
        rw [List.filter_cons_of_pos (by rw [hexp])]
        rw [List.map_cons, List.sum_cons]
        have hsum : ((rest.filter
            (expiresAt (timeUpdateStep i s j) i)).map
            (fun k => ((timeUpdateStep i s j).events.getD k
              default).resources u v)).sum =
            ((rest.filter (expiresAt s i)).map
            (fun k => (s.events.getD k default).resources u v)).sum := by
          have hfil : rest.filter (expiresAt (timeUpdateStep i s j) i) =
              rest.filter (expiresAt s i) := by
            apply List.filter_congr
            intro k hk
            exact hexp_pres k (fun hh => hnd.1 (hh ▸ hk))
          rw [hfil]
          refine congrArg List.sum (List.map_congr_left ?_)
          intro k hk
          have hkrest := List.mem_of_mem_filter hk
          have hkj : k ≠ j := fun hh => hnd.1 (hh ▸ hkrest)
          rw [tk1 k hkj]
        rw [ih3 u v, hsum, tk4 u v]
        ring

/-- C4: before event `i` of a policy run is routed, the expiry scan
(`timeUpdate i`, the first action of the loop body) transitions exactly
those earlier events that are still running and whose `endTime` is at most
event `i`'s arrival time — the comparison uses event `i`'s `startTime` for
the whole prior set (`expiresAt`) — clearing their `running` flag and
zeroing their reservation tables while leaving the parsed fields intact;
every other event is untouched, and every link's available capacity grows
by exactly the released events' recorded units. -/
theorem C4_expiry_scan_uses_current_arrival (entries : List TopoEntry)
    (work : List WorkEntry) (p : Policy) (i : ℕ) (s1 : SimState)
    (hi : i ≤ work.length)
    (hs : s1 = runPrefix (loadTopo entries) p (initState entries work) i) :
    (∀ j, j < i →
      if expiresAt s1 i j = true
      then ((timeUpdate i s1).events.getD j default).running = false ∧
        (∀ u v,
          ((timeUpdate i s1).events.getD j default).resources u v = 0) ∧
        sameStatic ((timeUpdate i s1).events.getD j default)
          (s1.events.getD j default)
      else (timeUpdate i s1).events.getD j default =
        s1.events.getD j default) ∧
    (∀ j, ¬ j < i → (timeUpdate i s1).events.getD j default =
      s1.events.getD j default) ∧
    (∀ u v, (timeUpdate i s1).availCap u v =
      s1.availCap u v + (((List.range i).filter (expiresAt s1 i)).map
        (fun j => (s1.events.getD j default).resources u v)).sum) := by
  subst hs
  have hlen : (initState entries work).events.length = work.length := by
    simp [initState, loadEvents]
  have hg : GoodState (loadTopo entries)
      (runPrefix (loadTopo entries) p (initState entries work) i) :=
    (goodState_runPrefix (loadTopo entries) p (initState entries work) i
      (goodState_initState entries work) (by rw [hlen]; exact hi)).1
  obtain ⟨h1, h2, h3⟩ := timeUpdate_fold_spec (loadTopo entries) i
    (List.range i) _ hg (List.nodup_range i)
    (by simp [List.mem_range])
  exact ⟨fun j hj => h2 j (List.mem_range.mpr hj),
    fun j hj => h1 j (fun hh => hj (List.mem_range.mp hh)), h3⟩

/-- Witness for C4: the expiry scan's available-capacity equation
instantiated on a concrete run (one C-D link, a call that has expired when
the second call arrives), all hypotheses discharged there. -/
theorem C4_expiry_scan_uses_current_arrival_witness :
    (timeUpdate 1 (runPrefix (loadTopo statEntries) Policy.SHPF
      (initState statEntries expireWork) 1)).availCap 2 3 =
    (runPrefix (loadTopo statEntries) Policy.SHPF
      (initState statEntries expireWork) 1).availCap 2 3 +
    (((List.range 1).filter (expiresAt (runPrefix (loadTopo statEntries)
        Policy.SHPF (initState statEntries expireWork) 1) 1)).map
      (fun j => ((runPrefix (loadTopo statEntries) Policy.SHPF
        (initState statEntries expireWork) 1).events.getD j
        default).resources 2 3)).sum :=
  (C4_expiry_scan_uses_current_arrival statEntries expireWork Policy.SHPF 1
    _ (by decide) rfl).2.2 2 3

/-! ## C9: the 999 sentinel acts as infinity in the path search -/

theorem minDistAux_lt (dist : List ℤ) (queue : List Bool)
    (l : List (Fin 26)) (minVal : ℤ) (best : Option (Fin 26)) (u : Fin 26)
    (hmv : minVal ≤ 999)
    (hbest : ∀ w, best = some w → dget dist w < 999)
    (hres : minDistAux dist queue l minVal best = some u) :
    dget dist u < 999 := by
  induction l generalizing minVal best with
  | nil => exact hbest u hres
  | cons i rest ih =>
    unfold minDistAux at hres
    split at hres
    · rename_i hcond
      refine ih (dget dist i) (some i) (le_of_lt (lt_of_lt_of_le hcond.2
        hmv)) ?_ hres
      intro w hw
      cases hw
      exact lt_of_lt_of_le hcond.2 hmv
    · exact ih minVal best hmv hbest hres

theorem minDistVertexInQueue_lt (dist : List ℤ) (queue : List Bool)
    (u : Fin 26) (h : minDistVertexInQueue dist queue = some u) :
    dget dist u < 999 :=
  minDistAux_lt dist queue (List.finRange 26) 999 none u (le_refl 999)
    (fun w hw => by cases hw) h

theorem walkEnd_eq_of_isWalk (adj : Mat ℤ) (l : List (Fin 26)) :
    ∀ (s d : Fin 26), IsWalk adj s l d → walkEnd s l = d := by
  induction l with
  | nil => exact fun s d h => h
  | cons v rest ih =>
    intro s d h
    exact ih v d h.2

theorem isWalk_append_single (adj : Mat ℤ) (l : List (Fin 26)) :
    ∀ (s u j : Fin 26), IsWalk adj s l u → 0 < adj u j →
      IsWalk adj s (l ++ [j]) j := by
  induction l with
  | nil =>
    intro s u j h hadj
    have hs : s = u := h
    rw [List.nil_append]
    exact ⟨hs ▸ hadj, rfl⟩
  | cons v rest ih =>
    intro s u j h hadj
    rw [List.cons_append]
    exact ⟨h.1, ih v u j h.2 hadj⟩

theorem walkCost_append_single (c : Mat ℚ) (l : List (Fin 26)) :
    ∀ (s : Fin 26) (d : ℤ) (j : Fin 26),
      walkCost c s d (l ++ [j]) =
        cppTrunc ((walkCost c s d l : ℚ) + c (walkEnd s l) j) := by
  induction l with
  | nil => intro s d j; rfl
  | cons v rest ih =>
    intro s d j
    rw [List.cons_append]
    show walkCost c v (cppTrunc ((d : ℚ) + c s v)) (rest ++ [j]) = _
    rw [ih v (cppTrunc ((d : ℚ) + c s v)) j]
    rfl

theorem dijkstraLoop_found_walk (avail : Mat ℤ) (c : Mat ℚ)
    (src dst : Fin 26) (size : ℕ) :
    ∀ (dist : List ℤ) (queue : List Bool)
      (prev : List (Option (Fin 26))),
    (∀ v, dget dist v ≤ 999) →
    (∀ v, dget dist v ≠ 999 → ∃ l, IsWalk avail src l v ∧
      walkCost c src 0 l = dget dist v) →
    (dijkstraLoop avail c dst size dist queue prev).2.2 = true →
    ∃ l, IsWalk avail src l dst ∧ walkCost c src 0 l < 999 := by
  induction size with
  | zero =>
    intro dist queue prev hb hp hfound
    exact absurd hfound (by simp [dijkstraLoop])
  | succ n ih =>
    intro dist queue prev hb hp hfound
    unfold dijkstraLoop at hfound
    cases hmin : minDistVertexInQueue dist queue with
    | none => rw [hmin] at hfound; exact absurd hfound (by simp)
    | some u =>
      rw [hmin] at hfound
      dsimp only at hfound
      have hu : dget dist u < 999 := minDistVertexInQueue_lt dist queue u
        hmin
      by_cases hud : u = dst
      · subst hud
        obtain ⟨l, hl, hcost⟩ := hp u (ne_of_lt hu)
        exact ⟨l, hl, by rw [hcost]; exact hu⟩
      · rw [if_neg hud] at hfound
        obtain ⟨lu, hlu, hlucost⟩ := hp u (ne_of_lt hu)
        refine ih _ _ _ ?_ ?_ hfound
        · intro v
          rw [show dget (relaxAll avail c u dist (queue.set u.1 false)
            prev).1 v = dget (tabZ fun j =>
              if qget (queue.set u.1 false) j = true ∧ 0 < avail u j ∧
                  cppTrunc ((dget dist u : ℚ) + c u j) < dget dist j
              then cppTrunc ((dget dist u : ℚ) + c u j)
              else dget dist j) v from rfl]
          rw [dget_tabZ]
          split
          · rename_i hguard
            exact le_of_lt (lt_of_lt_of_le hguard.2.2 (hb v))
          · exact hb v
        · intro v hv
          rw [show dget (relaxAll avail c u dist (queue.set u.1 false)
            prev).1 v = dget (tabZ fun j =>
              if qget (queue.set u.1 false) j = true ∧ 0 < avail u j ∧
                  cppTrunc ((dget dist u : ℚ) + c u j) < dget dist j
              then cppTrunc ((dget dist u : ℚ) + c u j)
              else dget dist j) v from rfl] at hv ⊢
          rw [dget_tabZ] at hv ⊢
          split at hv
          · rename_i hguard
            split
            · refine ⟨lu ++ [v], isWalk_append_single avail lu src u v hlu
                hguard.2.1, ?_⟩
              rw [walkCost_append_single,
                walkEnd_eq_of_isWalk avail lu src u hlu, hlucost]
            · rename_i hguard2
              exact absurd hguard hguard2
          · rename_i hguard
            split
            · rename_i hguard2
              exact absurd hguard2 hguard
            · exact hp v hv

/-- C9: the path search treats 999 as infinity — if every walk from the
source to the destination along links with positive available capacity has
accumulated cost (accumulated exactly as the code does, truncating to
`int` at every step) at least 999, then `updateState` reports the
destination as unreachable and the call is blocked, even when such walks
(physical paths with positive available capacity) exist. -/
theorem C9_cost_999_means_unreachable (t : Topo)
    (source destination : Fin 26) (edgeCost : Mat ℚ) (current : ℕ)
    (s : SimState)
    (hall : ∀ l, IsWalk s.availCap source l destination →
      999 ≤ walkCost edgeCost source 0 l) :
    (updateState t source destination edgeCost current s).2 = false := by
  unfold updateState
  dsimp only
  split
  · rename_i hfound
    have hb : ∀ v, dget (distInit.set source.1 0) v ≤ 999 := by
      intro v
      unfold dget distInit tabZ
      rw [List.getD_eq_getElem?_getD, List.getElem?_set]
      split
      · split
        · simp
        · simp
      · rw [List.getElem?_map]
        have hv : v.1 < (List.finRange 26).length := by simp [v.2]
        rw [List.getElem?_eq_getElem hv]
        simp
    have hp : ∀ v, dget (distInit.set source.1 0) v ≠ 999 →
        ∃ l, IsWalk s.availCap source l v ∧
          walkCost edgeCost source 0 l =
            dget (distInit.set source.1 0) v := by
      intro v hv
      have hval : dget (distInit.set source.1 0) v =
          if v = source then 0 else 999 := by
        unfold dget distInit tabZ
        rw [List.getD_eq_getElem?_getD, List.getElem?_set]
        by_cases hvs : v = source
        · subst hvs
          rw [if_pos rfl, if_pos (by simp [v.2])]
          simp
        · rw [if_neg (fun hh : source.1 = v.1 =>
            hvs (Fin.ext hh.symm))]
          rw [if_neg hvs]
          rw [List.getElem?_map]
          have hv26 : v.1 < (List.finRange 26).length := by simp [v.2]
          rw [List.getElem?_eq_getElem hv26]
          rfl
      rw [hval] at hv ⊢
      by_cases hvs : v = source
      · subst hvs
        rw [if_pos rfl]
        exact ⟨[], rfl, rfl⟩
      · rw [if_neg hvs] at hv
        exact absurd rfl hv
    obtain ⟨l, hl, hcost⟩ := dijkstraLoop_found_walk s.availCap edgeCost
      source destination ((queueInit s.availCap).count true)
      (distInit.set source.1 0) (queueInit s.availCap) prevInit hb hp hfound
    exact absurd (hall l hl) (not_le.mpr hcost)
  · rfl

theorem cppTrunc_add_ge_self (d : ℤ) (q : ℚ) (h : 0 ≤ q) :
    d ≤ cppTrunc ((d : ℚ) + q) := by
  unfold cppTrunc
  have hdq : (d : ℚ) ≤ (d : ℚ) + q := by linarith
  split
  · have h1 : (d : ℚ) ≤ -(-((d : ℚ) + q)) := by linarith
    have h2 : ⌈(d : ℚ)⌉ ≤ ⌈(d : ℚ) + q⌉ := Int.ceil_le_ceil hdq
    rw [Int.ceil_intCast] at h2
    rw [show -⌊-((d : ℚ) + q)⌋ = ⌈(d : ℚ) + q⌉ by rw [Int.floor_neg]; ring]
    exact h2
  · have h2 : ⌊(d : ℚ)⌋ ≤ ⌊(d : ℚ) + q⌋ := Int.floor_le_floor hdq
    rw [Int.floor_intCast] at h2
    exact h2

theorem walkCost_ge_start (c : Mat ℚ) (hc : ∀ a b, 0 ≤ c a b)
    (l : List (Fin 26)) : ∀ (s : Fin 26) (d : ℤ), d ≤ walkCost c s d l := by
  induction l with
  | nil => exact fun s d => le_refl d
  | cons v rest ih =>
    intro s d
    show d ≤ walkCost c v (cppTrunc ((d : ℚ) + c s v)) rest
    exact le_trans (cppTrunc_add_ge_self d (c s v) (hc s v))
      (ih v (cppTrunc ((d : ℚ) + c s v)))

/-- Witness for C9: the two-node topology whose single link A-B has
propagation delay 999 and positive available capacity; under SDPF edge
costs every walk A→B costs at least 999, and the call is blocked even
though the link is physically available. -/
theorem C9_cost_999_means_unreachable_witness :
    0 < inf999S0.availCap 0 1 ∧
    (updateState inf999T 0 1 inf999T.propDelay 0 inf999S0).2 = false := by
  refine ⟨by with_unfolding_all decide, ?_⟩
  refine C9_cost_999_means_unreachable inf999T 0 1 inf999T.propDelay 0
    inf999S0 ?_
  have hnn : ∀ a b, (0 : ℚ) ≤ inf999T.propDelay a b := by
    intro a b
    show (0 : ℚ) ≤ (loadTopo inf999Entries).propDelay a b
    unfold loadTopo inf999Entries loadTopoStep
    rw [List.foldl_cons, List.foldl_nil]
    dsimp only
    split
    · with_unfolding_all decide
    · exact le_refl 0
  have hnbr : ∀ v : Fin 26, 0 < inf999S0.availCap 0 v → v = 1 := by
    decide
  have h999 : cppTrunc (((0 : ℤ) : ℚ) + inf999T.propDelay 0 1) = 999 := by
    with_unfolding_all rfl
  intro l hl
  cases l with
  | nil =>
    have h01 : (0 : Fin 26) = 1 := hl
    exact absurd h01 (by decide)
  | cons v rest =>
    have hv1 : v = 1 := hnbr v hl.1
    subst hv1
    show (999 : ℤ) ≤ walkCost inf999T.propDelay 1
      (cppTrunc (((0 : ℤ) : ℚ) + inf999T.propDelay 0 1)) rest
    rw [h999]
    exact walkCost_ge_start inf999T.propDelay hnn rest 1 999
